import Mathlib

/-!
Verification of the header-synchronization core of `fork-observer`
(`src/node.rs`): the `Node` trait's default methods `new_active_headers`,
`new_nonactive_headers` and `active_chain_headers_rest`, together with the
data model they operate on.

Modelling conventions:
* `u64` values are `Nat`; the two subtractions the source performs on `u64`
  without a check (`tip.height - tip.branchlen as u64` and
  `tip.height - i as u64`) are embedded as wrapping subtraction modulo `2^64`
  (`wsub`), matching release-build Rust semantics.  All other arithmetic in
  the source stays far from the `u64` boundary and is embedded as plain `Nat`.
* Block hashes are `Nat` (stand-ins for 256-bit `BlockHash` values).
* The network is an oracle (`NodeBackend`): each primitive query is a function
  from its arguments to `Except FetchError _`, mirroring the fallible trait
  methods `block_hash`, `block_header` and the REST GET.
* Every synchronization function returns, next to its `Result`, the list of
  network requests it issued (`FetchEvent`), so that claims about which
  fetches happen are statable.
-/

namespace ForkObserver

/-- `2^64`, the wrap-around modulus of Rust `u64` arithmetic. -/
def U64 : Nat := 2 ^ 64

/-- Wrapping `u64` subtraction `a - b` (release-build Rust semantics). -/
def wsub (a b : Nat) : Nat := (a + (U64 - b % U64)) % U64

/-- Reinterpretation of a `u64` value as `i64` (the `as i64` cast in
`max(min_height as i64 - 5, 0)`). -/
def i64OfU64 (n : Nat) : Int :=
  if n % U64 < 2 ^ 63 then ((n % U64 : Nat) : Int) else ((n % U64 : Nat) : Int) - (U64 : Int)

/-- `ChainTipStatus` from `crate::types` (statuses reported by the node;
`node.rs` only ever compares against `Active`). -/
inductive ChainTipStatus where
  | Active
  | ValidFork
  | ValidHeaders
  | HeadersOnly
  | Invalid
deriving DecidableEq, Repr

/-- `ChainTip` from `crate::types`: one entry of the `getchaintips` result.
`block_hash` is the field read by `tip.block_hash()`. -/
structure ChainTip where
  block_hash : Nat
  height : Nat
  branchlen : Nat
  status : ChainTipStatus
deriving DecidableEq, Repr

/-- The 80-byte Bitcoin block header (`bitcoin::BlockHeader`), with each
fixed-width field held as a `Nat`. -/
structure BlockHeader where
  version : Nat
  prev_blockhash : Nat
  merkle_root : Nat
  time : Nat
  bits : Nat
  nonce : Nat
deriving DecidableEq, Repr

/-- `HeaderInfo` from `crate::types`: a header paired with the height the
reporting node assigned it. -/
structure HeaderInfo where
  height : Nat
  header : BlockHeader
deriving DecidableEq, Repr

/-- Modelled from the spec: `crate::types::Tree` (not under `src/`) is,
per spec section 3, a directed graph over headers plus a hash-to-node lookup
index.  Only the three observations `node.rs` makes of it are modelled:
`nodeCount` (`graph.node_count()`), `maxLeafHeight` (the maximal `height`
among leaf nodes, i.e. `externals(Outgoing).max_by_key(height)`), and the
key set `index` of the hash lookup map (`contains_key`). -/
structure Tree where
  nodeCount : Nat
  maxLeafHeight : Nat
  index : List Nat
deriving DecidableEq, Repr

/-- A raw HTTP response as surfaced by `minreq` (status, reason phrase,
binary body). -/
structure HttpResponse where
  status_code : Nat
  reason_phrase : String
  body : List Nat
deriving DecidableEq, Repr

/-- The two ways `active_chain_headers_rest` produces a
`FetchError::BitcoinCoreREST`: a non-200 response (kept with the data the
source interpolates into the message: status code, reason phrase, body) or a
failed deserialization of a header chunk (kept with the decode message). -/
inductive RESTFailure where
  | transport (status : Nat) (reason : String) (body : List Nat)
  | decode (msg : String)
deriving DecidableEq, Repr

/-- `crate::error::FetchError`, restricted to the variants `node.rs`
constructs itself plus a catch-all for errors propagated from the RPC
client / transport layers (which the oracle may inject). -/
inductive FetchError where
  | DataError (msg : String)
  | BitcoinCoreREST (f : RESTFailure)
  | RpcClient (code : Nat)
deriving DecidableEq, Repr

/-- A network request issued by the synchronization code: a
`block_hash(height)` RPC, a `block_header(hash)` RPC, or a REST GET for
`count` headers starting at `start`. -/
inductive FetchEvent where
  | hashAt (height : Nat)
  | headerAt (hash : Nat)
  | restGet (count : Nat) (start : Nat)
deriving DecidableEq, Repr

/-- The oracle for one backend node: the primitive queries of the `Node`
trait that the default synchronization methods call, with their responses. -/
structure NodeBackend where
  use_rest : Bool
  block_hash : Nat → Except FetchError Nat
  block_header : Nat → Except FetchError BlockHeader
  rest_get : Nat → Nat → Except FetchError HttpResponse

/-! ## Binary header (de)serialization (`bitcoin::consensus`) -/

/-- Little-endian encoding of `n` into `k` bytes. -/
def toLE : Nat → Nat → List Nat
  | 0, _ => []
  | k + 1, n => n % 256 :: toLE k (n / 256)

/-- Little-endian decoding of a byte list. -/
def fromLE : List Nat → Nat
  | [] => 0
  | b :: rest => b + 256 * fromLE rest

/-- The 80-byte consensus serialization of a block header:
`version (4) ‖ prev_blockhash (32) ‖ merkle_root (32) ‖ time (4) ‖ bits (4)
‖ nonce (4)`, each field little-endian. -/
def serializeHeader (h : BlockHeader) : List Nat :=
  toLE 4 h.version ++ toLE 32 h.prev_blockhash ++ toLE 32 h.merkle_root ++
    toLE 4 h.time ++ toLE 4 h.bits ++ toLE 4 h.nonce

/-- `bitcoin::consensus::deserialize::<BlockHeader>` on one chunk: succeeds
exactly on 80-byte inputs (the header's six fixed-width fields), failing on
any other length (truncated data or trailing bytes). -/
def deserializeHeader (bytes : List Nat) : Except String BlockHeader :=
  if bytes.length = 80 then
    .ok { version := fromLE (bytes.take 4)
        , prev_blockhash := fromLE ((bytes.drop 4).take 32)
        , merkle_root := fromLE ((bytes.drop 36).take 32)
        , time := fromLE ((bytes.drop 68).take 4)
        , bits := fromLE ((bytes.drop 72).take 4)
        , nonce := fromLE ((bytes.drop 76).take 4) }
  else .error "unexpected length"

/-- Fuel-driven worker for `chunks80` (structural recursion so that concrete
inputs evaluate by `rfl`/`decide`). -/
def chunksAux : Nat → List Nat → List (List Nat)
  | 0, _ => []
  | _, [] => []
  | fuel + 1, l => l.take 80 :: chunksAux fuel (l.drop 80)

/-- Rust's `slice::chunks(80)`: consecutive 80-byte chunks, the final chunk
possibly shorter; the empty slice has no chunks. -/
def chunks80 (l : List Nat) : List (List Nat) := chunksAux l.length l

/-- `.map(deserialize).collect::<Result<Vec<_>, _>>()`: deserialize every
chunk, failing if any chunk fails. -/
def collectHeaders : List (List Nat) → Except String (List BlockHeader)
  | [] => .ok []
  | c :: rest =>
    match deserializeHeader c with
    | .error e => .error e
    | .ok h =>
      match collectHeaders rest with
      | .error e => .error e
      | .ok hs => .ok (h :: hs)

/-! ## `active_chain_headers_rest` -/

/-- `Node::active_chain_headers_rest`: GET the bulk binary endpoint for
`count` headers from `start`; non-200 responses become a transport failure
carrying status, reason and body; otherwise split the body into 80-byte
chunks and deserialize each in order, any failure aborting the whole batch
with a decode failure.  (The source's `assert!(self.use_rest())` is a
runtime assertion; the function is only invoked under `use_rest()`.) -/
def activeChainHeadersRest (node : NodeBackend) (count : Nat) (start : Nat) :
    Except FetchError (List BlockHeader) :=
  match node.rest_get count start with
  | .error e => .error e
  | .ok res =>
    if res.status_code ≠ 200 then
      .error (.BitcoinCoreREST (.transport res.status_code res.reason_phrase res.body))
    else
      match collectHeaders (chunks80 res.body) with
      | .error e => .error (.BitcoinCoreREST (.decode e))
      | .ok headers => .ok headers

/-! ## `new_active_headers` -/

/-- `STEP_SIZE` from `new_active_headers`: REST batch size and stride. -/
def STEP_SIZE : Nat := 2000

/-- The fork-root computation `tip.height - tip.branchlen as u64` (an
unchecked `u64` subtraction, hence wrapping). -/
def forkRootW (tip : ChainTip) : Nat := wsub tip.height tip.branchlen

/-- Rust `Iterator::min_by_key` (first element among those with minimal
key), specialized to `Nat` keys. -/
def minByKeyFirst (key : α → Nat) : List α → Option α
  | [] => none
  | a :: rest =>
    match minByKeyFirst key rest with
    | none => some a
    | some b => if key a ≤ key b then some a else some b

/-- Selection of `first_fork_tip`: among tips whose fork-root height exceeds
`min_fork_height`, the one with the smallest fork-root height. -/
def selectedForkTip (tips : List ChainTip) (min_fork_height : Nat) : Option ChainTip :=
  minByKeyFirst forkRootW (tips.filter (fun tip => decide (min_fork_height < forkRootW tip)))

/-- `scan_start_height = max(min_height as i64 - 5, 0) as u64`. -/
def scanStartOf (minHeight : Nat) : Nat := (max (i64OfU64 minHeight - 5) 0).toNat

/-- `current_height`: `scan_start_height` if the tree is empty, otherwise
the height of the tree's highest leaf. -/
def currentHeightOf (tree : Tree) (scanStart : Nat) : Nat :=
  if tree.nodeCount = 0 then scanStart else tree.maxLeafHeight

/-- Selection of `active_tip`: `.filter(status == Active).last()`. -/
def activeTipOf (tips : List ChainTip) : Option ChainTip :=
  (tips.filter (fun tip => tip.status == ChainTipStatus.Active)).getLast?

/-- The heights visited by the non-REST loop:
`current_height + 1 ..= tip_height`. -/
def itemHeights (currentHeight tipHeight : Nat) : List Nat :=
  List.range' (currentHeight + 1) (tipHeight - currentHeight)

/-- The query heights visited by the REST loop:
`(current_height + 1 ..= tip_height).step_by(STEP_SIZE)`. -/
def batchStarts (currentHeight tipHeight : Nat) : List Nat :=
  List.range' (currentHeight + 1) ((tipHeight - currentHeight + (STEP_SIZE - 1)) / STEP_SIZE)
    STEP_SIZE

/-- The non-REST branch of `new_active_headers`: for each height, fetch the
hash, skip it if already in the tree's index, otherwise fetch the header and
record it. -/
def itemSync (node : NodeBackend) (tree : Tree) :
    List Nat → Except FetchError (List HeaderInfo) × List FetchEvent
  | [] => (.ok [], [])
  | height :: rest =>
    match node.block_hash height with
    | .error e => (.error e, [.hashAt height])
    | .ok hsh =>
      if tree.index.contains hsh then
        ((itemSync node tree rest).1, .hashAt height :: (itemSync node tree rest).2)
      else
        match node.block_header hsh with
        | .error e => (.error e, [.hashAt height, .headerAt hsh])
        | .ok hdr =>
          ((itemSync node tree rest).1.map (fun l => ⟨height, hdr⟩ :: l),
           .hashAt height :: .headerAt hsh :: (itemSync node tree rest).2)

/-- The REST branch of `new_active_headers`: for each query height (fixed
stride `STEP_SIZE`), fetch the hash, skip the whole batch if that hash is
already in the tree's index, otherwise bulk-fetch up to `STEP_SIZE` headers
from it and pair them with heights `query_height ..`. -/
def restSync (node : NodeBackend) (tree : Tree) :
    List Nat → Except FetchError (List HeaderInfo) × List FetchEvent
  | [] => (.ok [], [])
  | q :: rest =>
    match node.block_hash q with
    | .error e => (.error e, [.hashAt q])
    | .ok hsh =>
      if tree.index.contains hsh then
        ((restSync node tree rest).1, .hashAt q :: (restSync node tree rest).2)
      else
        match activeChainHeadersRest node STEP_SIZE hsh with
        | .error e => (.error e, [.hashAt q, .restGet STEP_SIZE hsh])
        | .ok headers =>
          ((restSync node tree rest).1.map
             (fun l => ((List.range' q headers.length).zip headers).map
                 (fun p => (⟨p.1, p.2⟩ : HeaderInfo)) ++ l),
           .hashAt q :: .restGet STEP_SIZE hsh :: (restSync node tree rest).2)

/-- `Node::new_active_headers`: select `first_fork_tip` (no qualifying tip:
return empty, not an error), compute `scan_start_height` and
`current_height`, require an `Active` tip (else a `DataError`; the source
message quotes the word active), then run the REST or per-item loop up to the
active tip's height. -/
def new_active_headers (node : NodeBackend) (tips : List ChainTip) (tree : Tree)
    (min_fork_height : Nat) : Except FetchError (List HeaderInfo) × List FetchEvent :=
  match selectedForkTip tips min_fork_height with
  | none => (.ok [], [])
  | some first_fork_tip =>
    let min_height := forkRootW first_fork_tip
    let scan_start_height := scanStartOf min_height
    let current_height := currentHeightOf tree scan_start_height
    match activeTipOf tips with
    | none => (.error (.DataError "No active chain tip returned"), [])
    | some active_tip =>
      if node.use_rest then
        restSync node tree (batchStarts current_height active_tip.height)
      else
        itemSync node tree (itemHeights current_height active_tip.height)

/-! ## `new_nonactive_headers` -/

/-- The inner loop of `new_nonactive_headers` for one tip: iterate
`i in 0..=branchlen` (the remaining indices are the list argument), breaking
if the tip's own hash is in the tree's index, otherwise fetching the header
of the current hash, recording it at height `tip.height - i` (unchecked
`u64` subtraction), and following its `prev_blockhash`. -/
def nonactiveWalk (node : NodeBackend) (tree : Tree) (tip : ChainTip) :
    Nat → List Nat → Except FetchError (List HeaderInfo) × List FetchEvent
  | _, [] => (.ok [], [])
  | next_header, i :: rest =>
    if tree.index.contains tip.block_hash then (.ok [], [])
    else
      match node.block_header next_header with
      | .error e => (.error e, [.headerAt next_header])
      | .ok header =>
        ((nonactiveWalk node tree tip header.prev_blockhash rest).1.map
           (fun l => ⟨wsub tip.height i, header⟩ :: l),
         .headerAt next_header :: (nonactiveWalk node tree tip header.prev_blockhash rest).2)

/-- The outer loop of `new_nonactive_headers` over the filtered tips. -/
def nonactiveAll (node : NodeBackend) (tree : Tree) :
    List ChainTip → Except FetchError (List HeaderInfo) × List FetchEvent
  | [] => (.ok [], [])
  | tip :: rest =>
    match nonactiveWalk node tree tip tip.block_hash (List.range (tip.branchlen + 1)) with
    | (.error e, tr) => (.error e, tr)
    | (.ok l, tr) =>
      ((nonactiveAll node tree rest).1.map (fun l2 => l ++ l2),
       tr ++ (nonactiveAll node tree rest).2)

/-- `Node::new_nonactive_headers`: for every tip with fork-root height above
`min_fork_height` and status other than `Active`, walk `branchlen + 1` steps
backward from the tip's hash, skipping the tip if its own hash is already in
the tree. -/
def new_nonactive_headers (node : NodeBackend) (tips : List ChainTip) (tree : Tree)
    (min_fork_height : Nat) : Except FetchError (List HeaderInfo) × List FetchEvent :=
  nonactiveAll node tree
    ((tips.filter (fun tip => decide (min_fork_height < forkRootW tip))).filter
      (fun tip => !(tip.status == ChainTipStatus.Active)))

/-! ## Reference definitions taken from the spec's words (for refinement
claims only) -/

/-- Follows the spec's words (section 4.3): walk backward from `hash` for the
given number of steps, at each step recording the fetched header at the
current height and moving to its previous hash, decrementing the height. -/
def specBackwardWalk (gf : Nat → BlockHeader) (hash height : Nat) : Nat → List HeaderInfo
  | 0 => []
  | n + 1 => ⟨height, gf hash⟩ :: specBackwardWalk gf (gf hash).prev_blockhash (height - 1) n

/-- The hashes visited by `specBackwardWalk`, in visit order. -/
def specWalkHashes (gf : Nat → BlockHeader) (hash : Nat) : Nat → List Nat
  | 0 => []
  | n + 1 => hash :: specWalkHashes gf (gf hash).prev_blockhash n

/-! ## Concrete backends used to instantiate theorems -/

/-- A non-REST backend whose hash-by-height and header-by-hash oracles are
given by total functions. -/
def itemNode (hf : Nat → Nat) (gf : Nat → BlockHeader) : NodeBackend :=
  { use_rest := false
  , block_hash := fun h => .ok (hf h)
  , block_header := fun hs => .ok (gf hs)
  , rest_get := fun _ _ => .error (.RpcClient 0) }

/-- A backend all of whose queries fail (usable wherever a run must issue no
successful fetch). -/
def errNode : NodeBackend :=
  { use_rest := false
  , block_hash := fun _ => .error (.RpcClient 0)
  , block_header := fun _ => .error (.RpcClient 0)
  , rest_get := fun _ _ => .error (.RpcClient 0) }

/-! ## Basic lemmas -/

theorem wsub_eq_sub {a b : Nat} (ha : a < U64) (hb : b ≤ a) : wsub a b = a - b := by
  have hU : U64 = 18446744073709551616 := by norm_num [U64]
  unfold wsub
  rw [hU] at ha ⊢
  have hbU : b % 18446744073709551616 = b := Nat.mod_eq_of_lt (by omega)
  rw [hbU]
  omega

theorem nonactiveWalk_seen (node : NodeBackend) (tree : Tree) (tip : ChainTip)
    (next : Nat) (l : List Nat) (h : tree.index.contains tip.block_hash = true) :
    nonactiveWalk node tree tip next l = (.ok [], []) := by
  cases l with
  | nil => rfl
  | cons i rest => unfold nonactiveWalk; rw [if_pos h]

/-! ## Claim theorems -/

/-- Claim C3: given an empty tree, `min_fork_height = 0`, a single tip
`{hash: 1000, height: 100, branchlen: 0, status: Active}` and a non-bulk
backend whose hash and header oracles are arbitrary total functions,
`new_active_headers` computes `scan_start = max(100 - 5, 0) = 95`, issues
exactly 5 hash-by-height plus 5 header-by-hash fetches for heights 96..100,
and returns exactly the 5 `HeaderInfo` records with heights 96..100 in
ascending order. -/
theorem c3_single_tip_scan (hf : Nat → Nat) (gf : Nat → BlockHeader) :
    new_active_headers (itemNode hf gf) [⟨1000, 100, 0, .Active⟩] ⟨0, 0, []⟩ 0 =
      ((.ok [⟨96, gf (hf 96)⟩, ⟨97, gf (hf 97)⟩, ⟨98, gf (hf 98)⟩,
             ⟨99, gf (hf 99)⟩, ⟨100, gf (hf 100)⟩] :
          Except FetchError (List HeaderInfo)),
       ([.hashAt 96, .headerAt (hf 96), .hashAt 97, .headerAt (hf 97),
         .hashAt 98, .headerAt (hf 98), .hashAt 99, .headerAt (hf 99),
         .hashAt 100, .headerAt (hf 100)] : List FetchEvent)) := by
  rfl

/-- Claim C4 (amended): when some tip qualifies as `first_fork_tip` (its
fork-root height exceeds `min_fork_height`) and no tip has `Active` status,
`new_active_headers` fails with the data-consistency error and issues no
fetches.  (The amendment: the qualifying-tip premise is needed, because the
`first_fork_tip` check runs first and returns an empty `Ok` result before
the `Active` check — see the counterexample.) -/
theorem c4_no_active_tip_error (node : NodeBackend) (tips : List ChainTip) (tree : Tree)
    (mfh : Nat) (fft : ChainTip)
    (h1 : selectedForkTip tips mfh = some fft)
    (h2 : ∀ tip ∈ tips, tip.status ≠ ChainTipStatus.Active) :
    new_active_headers node tips tree mfh =
      (.error (.DataError "No active chain tip returned"), []) := by
  have hat : activeTipOf tips = none := by
    unfold activeTipOf
    have hfil : tips.filter (fun tip => tip.status == ChainTipStatus.Active) = [] := by
      simp only [List.filter_eq_nil_iff]
      intro a ha
      simpa using h2 a ha
    rw [hfil]
    rfl
  unfold new_active_headers
  rw [h1, hat]

theorem c4_no_active_tip_error_witness :
    new_active_headers errNode [⟨1, 50, 0, .ValidFork⟩] ⟨0, 0, []⟩ 0 =
      (.error (.DataError "No active chain tip returned"), []) :=
  c4_no_active_tip_error errNode _ _ 0 ⟨1, 50, 0, .ValidFork⟩ (by decide) (by decide)

/-- Claim C4 counterexample: with the single tip
`{height: 5, branchlen: 0, status: ValidFork}` and `min_fork_height = 10`,
no tip has `Active` status, yet `new_active_headers` returns `Ok []` (and no
error), because no tip qualifies as `first_fork_tip` and that check runs
before the `Active` check. -/
theorem c4_counterexample :
    (new_active_headers errNode [⟨1, 5, 0, .ValidFork⟩] ⟨0, 0, []⟩ 10).1 = .ok [] ∧
    ∀ tip ∈ [(⟨1, 5, 0, .ValidFork⟩ : ChainTip)], tip.status ≠ ChainTipStatus.Active := by
  exact ⟨rfl, by decide⟩

/-- Claim C7: for every tip whose own block hash is already present in the
tree's lookup index, `new_nonactive_headers` contributes no `HeaderInfo`
records for that tip and performs no fetches for it, regardless of the tip's
`branchlen` (and of its status or fork-root height). -/
theorem c7_seen_tip_skipped (node : NodeBackend) (tip : ChainTip) (tree : Tree) (mfh : Nat)
    (h : tree.index.contains tip.block_hash = true) :
    new_nonactive_headers node [tip] tree mfh = (.ok [], []) := by
  unfold new_nonactive_headers
  have hw := nonactiveWalk_seen node tree tip tip.block_hash
    (List.range (tip.branchlen + 1)) h
  have hall : ∀ l : List ChainTip, l = [] ∨ l = [tip] →
      nonactiveAll node tree l = (.ok [], []) := by
    rintro l (rfl | rfl)
    · rfl
    · unfold nonactiveAll
      rw [hw]
      rfl
  apply hall
  by_cases h1 : (decide (mfh < forkRootW tip)) = true
  · by_cases h2 : (!(tip.status == ChainTipStatus.Active)) = true
    · right
      simp [List.filter_cons, List.filter_nil, h1, h2]
    · left
      simp [List.filter_cons, List.filter_nil, h1, h2]
  · left
    simp [List.filter_cons, List.filter_nil, h1]

theorem c7_seen_tip_skipped_witness :
    new_nonactive_headers errNode [⟨7, 20, 5, .ValidFork⟩] ⟨3, 20, [7]⟩ 0 = (.ok [], []) :=
  c7_seen_tip_skipped errNode ⟨7, 20, 5, .ValidFork⟩ ⟨3, 20, [7]⟩ 0 (by decide)

theorem minByKeyFirst_cons_isSome {α : Type} (key : α → Nat) (x : α) (rest : List α) :
    ∃ a, minByKeyFirst key (x :: rest) = some a := by
  unfold minByKeyFirst
  cases minByKeyFirst key rest with
  | none => exact ⟨x, rfl⟩
  | some b =>
    by_cases hk : key x ≤ key b
    · exact ⟨x, if_pos hk⟩
    · exact ⟨b, if_neg hk⟩

theorem minByKeyFirst_mem {α : Type} {key : α → Nat} :
    ∀ {l : List α} {a : α}, minByKeyFirst key l = some a → a ∈ l := by
  intro l
  induction l with
  | nil => intro a h; simp [minByKeyFirst] at h
  | cons x rest ih =>
    intro a h
    unfold minByKeyFirst at h
    cases hr : minByKeyFirst key rest with
    | none =>
      rw [hr] at h
      dsimp only at h
      cases h
      exact List.mem_cons_self x rest
    | some b =>
      rw [hr] at h
      dsimp only at h
      by_cases hk : key x ≤ key b
      · rw [if_pos hk] at h
        cases h
        exact List.mem_cons_self x rest
      · rw [if_neg hk] at h
        cases h
        exact List.mem_cons_of_mem x (ih hr)

theorem minByKeyFirst_min {α : Type} {key : α → Nat} :
    ∀ {l : List α} {a : α}, minByKeyFirst key l = some a → ∀ b ∈ l, key a ≤ key b := by
  intro l
  induction l with
  | nil => intro a h; simp [minByKeyFirst] at h
  | cons x rest ih =>
    intro a h b hb
    unfold minByKeyFirst at h
    cases hr : minByKeyFirst key rest with
    | none =>
      rw [hr] at h
      dsimp only at h
      cases h
      cases rest with
      | nil =>
        rcases List.mem_singleton.mp hb with rfl
        exact Nat.le_refl _
      | cons y t =>
        obtain ⟨c, hc⟩ := minByKeyFirst_cons_isSome key y t
        rw [hc] at hr
        exact Option.noConfusion hr
    | some c =>
      rw [hr] at h
      dsimp only at h
      by_cases hk : key x ≤ key c
      · rw [if_pos hk] at h
        cases h
        rcases List.mem_cons.mp hb with rfl | hb'
        · exact Nat.le_refl _
        · exact Nat.le_trans hk (ih hr b hb')
      · rw [if_neg hk] at h
        cases h
        rcases List.mem_cons.mp hb with rfl | hb'
        · exact Nat.le_of_lt (Nat.lt_of_not_le hk)
        · exact ih hr b hb'

/-- Claim C5: if every tip's fork-root height (`height - branchlen`, with
the values in `u64` range and `branchlen ≤ height`) is at most
`min_fork_height`, `new_active_headers` returns an empty list and no error
(and issues no fetches); otherwise — as soon as one tip's fork-root height
strictly exceeds `min_fork_height` — a tip is selected as `first_fork_tip`
that qualifies and has the smallest fork-root height among all qualifying
tips. -/
theorem c5_fork_root_selection (tips : List ChainTip) (mfh : Nat)
    (hwf : ∀ tip ∈ tips, tip.height < U64 ∧ tip.branchlen ≤ tip.height) :
    ((∀ tip ∈ tips, tip.height - tip.branchlen ≤ mfh) →
        ∀ (node : NodeBackend) (tree : Tree),
          new_active_headers node tips tree mfh = (.ok [], [])) ∧
    (∀ t0 ∈ tips, mfh < t0.height - t0.branchlen →
        ∃ t ∈ tips, selectedForkTip tips mfh = some t ∧ mfh < forkRootW t ∧
          ∀ u ∈ tips, mfh < forkRootW u → forkRootW t ≤ forkRootW u) := by
  constructor
  · intro hle node tree
    have hfil : tips.filter (fun tip => decide (mfh < forkRootW tip)) = [] := by
      simp only [List.filter_eq_nil_iff]
      intro a ha
      obtain ⟨h1, h2⟩ := hwf a ha
      simp only [decide_eq_true_eq, not_lt]
      unfold forkRootW
      rw [wsub_eq_sub h1 h2]
      exact hle a ha
    unfold new_active_headers selectedForkTip
    rw [hfil]
    rfl
  · intro t0 ht0 hlt
    have hq0 : mfh < forkRootW t0 := by
      obtain ⟨h1, h2⟩ := hwf t0 ht0
      unfold forkRootW
      rw [wsub_eq_sub h1 h2]
      exact hlt
    have hfm : t0 ∈ tips.filter (fun tip => decide (mfh < forkRootW tip)) :=
      List.mem_filter.mpr ⟨ht0, by simpa using hq0⟩
    cases hsel : selectedForkTip tips mfh with
    | none =>
      exfalso
      unfold selectedForkTip at hsel
      cases hfl : tips.filter (fun tip => decide (mfh < forkRootW tip)) with
      | nil => rw [hfl] at hfm; simp at hfm
      | cons y t =>
        rw [hfl] at hsel
        obtain ⟨a, ha⟩ := minByKeyFirst_cons_isSome forkRootW y t
        rw [ha] at hsel
        exact Option.noConfusion hsel
    | some t =>
      have hsel' : minByKeyFirst forkRootW
          (tips.filter (fun tip => decide (mfh < forkRootW tip))) = some t := hsel
      have htf := minByKeyFirst_mem hsel'
      refine ⟨t, (List.mem_filter.mp htf).1, rfl, ?_, ?_⟩
      · simpa using (List.mem_filter.mp htf).2
      · intro u hu hqu
        exact minByKeyFirst_min hsel' u (List.mem_filter.mpr ⟨hu, by simpa using hqu⟩)

theorem c5_fork_root_selection_witness :
    (new_active_headers errNode [⟨1, 5, 0, .ValidFork⟩] ⟨0, 0, []⟩ 10 = (.ok [], [])) ∧
    (∃ t ∈ [(⟨2, 30, 0, .Active⟩ : ChainTip), ⟨3, 20, 0, .ValidFork⟩],
        selectedForkTip [⟨2, 30, 0, .Active⟩, ⟨3, 20, 0, .ValidFork⟩] 10 = some t ∧
        10 < forkRootW t ∧
        ∀ u ∈ [(⟨2, 30, 0, .Active⟩ : ChainTip), ⟨3, 20, 0, .ValidFork⟩],
          10 < forkRootW u → forkRootW t ≤ forkRootW u) := by
  constructor
  · exact (c5_fork_root_selection [⟨1, 5, 0, .ValidFork⟩] 10 (by decide)).1
      (by decide) errNode ⟨0, 0, []⟩
  · exact (c5_fork_root_selection [⟨2, 30, 0, .Active⟩, ⟨3, 20, 0, .ValidFork⟩] 10
      (by decide)).2 ⟨3, 20, 0, .ValidFork⟩ (by decide) (by decide)

/-- Claim C9: the fork-root computation `tip.height - tip.branchlen as u64`
used by the tip filters of both `new_active_headers` and
`new_nonactive_headers` is an unchecked `u64` subtraction: it agrees with
mathematical subtraction exactly under the precondition
`branchlen ≤ height`; for the tip `{height: 0, branchlen: 1}` it wraps to
`2^64 - 1`, so with `min_fork_height = 10` the tip passes both functions'
fork-root filters (and is even selected as `first_fork_tip`) although its
mathematical fork-root height `0 - 1 = -1` is at most `10` and the tip
ought to be filtered out. -/
theorem c9_fork_root_underflow :
    (∀ tip : ChainTip, tip.height < U64 → tip.branchlen ≤ tip.height →
        forkRootW tip = tip.height - tip.branchlen) ∧
    (forkRootW ⟨7, 0, 1, .ValidFork⟩ = U64 - 1 ∧
     10 < forkRootW ⟨7, 0, 1, .ValidFork⟩ ∧
     selectedForkTip [⟨7, 0, 1, .ValidFork⟩] 10 = some ⟨7, 0, 1, .ValidFork⟩ ∧
     ([(⟨7, 0, 1, .ValidFork⟩ : ChainTip)].filter
         (fun tip => decide (10 < forkRootW tip))).filter
         (fun tip => !(tip.status == ChainTipStatus.Active)) = [⟨7, 0, 1, .ValidFork⟩] ∧
     ((0 : Int) - 1 ≤ 10)) := by
  constructor
  · intro tip h1 h2
    exact wsub_eq_sub h1 h2
  · refine ⟨?_, ?_, ?_, ?_, ?_⟩ <;> decide

theorem c9_fork_root_underflow_witness : forkRootW ⟨7, 9, 4, .Active⟩ = 5 := by
  have h := c9_fork_root_underflow.1 ⟨7, 9, 4, .Active⟩ (by decide) (by decide)
  rw [h]
  rfl

theorem nonactiveWalk_spec (hf : Nat → Nat) (gf : Nat → BlockHeader) (tree : Tree)
    (tip : ChainTip)
    (hseen : tree.index.contains tip.block_hash = false)
    (hb : tip.branchlen ≤ tip.height) (hh : tip.height < U64) :
    ∀ (n i hash : Nat), i + n = tip.branchlen + 1 →
      nonactiveWalk (itemNode hf gf) tree tip hash (List.range' i n) =
        (.ok (specBackwardWalk gf hash (tip.height - i) n),
         (specWalkHashes gf hash n).map FetchEvent.headerAt) := by
  intro n
  induction n with
  | zero => intro i hash hin; rfl
  | succ n ih =>
    intro i hash hin
    have hi : i ≤ tip.branchlen := by omega
    have hiH : i ≤ tip.height := Nat.le_trans hi hb
    rw [List.range'_succ]
    unfold nonactiveWalk
    rw [if_neg (by rw [hseen]; exact Bool.false_ne_true)]
    have hih := ih (i + 1) (gf hash).prev_blockhash (by omega)
    simp only [itemNode] at hih ⊢
    rw [hih]
    simp only [Except.map, specBackwardWalk, specWalkHashes, List.map_cons]
    rw [wsub_eq_sub hh hiH]
    have hsub : tip.height - i - 1 = tip.height - (i + 1) := by omega
    rw [hsub]

/-- Claim C6: for a tip with status other than `Active`, fork-root height
above `min_fork_height`, whose own hash is not in the tree (and with
`branchlen ≤ height` in `u64` range), `new_nonactive_headers` over a backend
with a total header oracle walks backward from the tip's hash for exactly
`branchlen + 1` steps, at step `i` recording
`HeaderInfo {height := tip.height - i, header := headerByHash current}` and
advancing to that header's previous-hash field (the reference behaviour
`specBackwardWalk`, written from the spec), and its trace consists solely of
single-item header fetches for the walked hashes. -/
theorem c6_backward_walk (hf : Nat → Nat) (gf : Nat → BlockHeader) (tip : ChainTip)
    (tree : Tree) (mfh : Nat)
    (hst : tip.status ≠ ChainTipStatus.Active)
    (hq : mfh < forkRootW tip)
    (hseen : tree.index.contains tip.block_hash = false)
    (hb : tip.branchlen ≤ tip.height) (hh : tip.height < U64) :
    new_nonactive_headers (itemNode hf gf) [tip] tree mfh =
      (.ok (specBackwardWalk gf tip.block_hash tip.height (tip.branchlen + 1)),
       (specWalkHashes gf tip.block_hash (tip.branchlen + 1)).map FetchEvent.headerAt) := by
  unfold new_nonactive_headers
  have hfil : ([tip].filter (fun t => decide (mfh < forkRootW t))).filter
      (fun t => !(t.status == ChainTipStatus.Active)) = [tip] := by
    simp [List.filter_cons, hq, hst]
  rw [hfil]
  unfold nonactiveAll
  have hw := nonactiveWalk_spec hf gf tree tip hseen hb hh (tip.branchlen + 1) 0
    tip.block_hash (by omega)
  rw [List.range_eq_range', hw]
  have hzero : tip.height - 0 = tip.height := rfl
  rw [hzero]
  simp [nonactiveAll, Except.map]

theorem c6_backward_walk_witness :
    new_nonactive_headers (itemNode (fun q => q) (fun h => ⟨0, 2 * h, 0, 0, 0, 0⟩))
        [⟨500, 10, 3, .ValidFork⟩] ⟨0, 0, []⟩ 0 =
      ((.ok [⟨10, ⟨0, 1000, 0, 0, 0, 0⟩⟩, ⟨9, ⟨0, 2000, 0, 0, 0, 0⟩⟩,
             ⟨8, ⟨0, 4000, 0, 0, 0, 0⟩⟩, ⟨7, ⟨0, 8000, 0, 0, 0, 0⟩⟩] :
          Except FetchError (List HeaderInfo)),
       ([.headerAt 500, .headerAt 1000, .headerAt 2000, .headerAt 4000] :
          List FetchEvent)) := by
  have h := c6_backward_walk (fun q => q) (fun h => ⟨0, 2 * h, 0, 0, 0, 0⟩)
    ⟨500, 10, 3, .ValidFork⟩ ⟨0, 0, []⟩ 0
    (by decide) (by decide) (by decide) (by decide) (by decide)
  rw [h]
  rfl

theorem activeTipOf_append_last (xs ys : List ChainTip) (t : ChainTip)
    (h2 : t.status = ChainTipStatus.Active)
    (h3 : ∀ u ∈ ys, u.status ≠ ChainTipStatus.Active) :
    activeTipOf (xs ++ t :: ys) = some t := by
  unfold activeTipOf
  rw [List.filter_append]
  have hys : (t :: ys).filter (fun tip => tip.status == ChainTipStatus.Active) = [t] := by
    rw [List.filter_cons, if_pos (by simpa using h2)]
    have hnil : ys.filter (fun tip => tip.status == ChainTipStatus.Active) = [] := by
      simp only [List.filter_eq_nil_iff]
      intro a ha
      simpa using h3 a ha
    rw [hnil]
  rw [hys]
  simp

/-- Claim C10: when more than one tip carries status `Active`,
`new_active_headers` reports no multiplicity error: it selects the last
`Active` tip in list order as `active_tip` and proceeds to synchronize the
range bounded by that tip's height (the REST or per-item loop up to
`t.height`). -/
theorem c10_multiple_active (node : NodeBackend) (xs ys : List ChainTip) (t fft : ChainTip)
    (tree : Tree) (mfh : Nat)
    (h1 : selectedForkTip (xs ++ t :: ys) mfh = some fft)
    (h2 : t.status = ChainTipStatus.Active)
    (h3 : ∀ u ∈ ys, u.status ≠ ChainTipStatus.Active)
    (_h4 : ∃ u ∈ xs, u.status = ChainTipStatus.Active) :
    activeTipOf (xs ++ t :: ys) = some t ∧
    new_active_headers node (xs ++ t :: ys) tree mfh =
      (if node.use_rest then
         restSync node tree
           (batchStarts (currentHeightOf tree (scanStartOf (forkRootW fft))) t.height)
       else
         itemSync node tree
           (itemHeights (currentHeightOf tree (scanStartOf (forkRootW fft))) t.height)) := by
  have hat := activeTipOf_append_last xs ys t h2 h3
  refine ⟨hat, ?_⟩
  unfold new_active_headers
  rw [h1, hat]

theorem c10_multiple_active_witness :
    activeTipOf [⟨1, 60, 0, .Active⟩, ⟨2, 70, 0, .Active⟩] = some ⟨2, 70, 0, .Active⟩ ∧
    new_active_headers errNode [⟨1, 60, 0, .Active⟩, ⟨2, 70, 0, .Active⟩] ⟨0, 0, []⟩ 0 =
      (if errNode.use_rest then
         restSync errNode ⟨0, 0, []⟩
           (batchStarts (currentHeightOf ⟨0, 0, []⟩
             (scanStartOf (forkRootW ⟨1, 60, 0, .Active⟩))) 70)
       else
         itemSync errNode ⟨0, 0, []⟩
           (itemHeights (currentHeightOf ⟨0, 0, []⟩
             (scanStartOf (forkRootW ⟨1, 60, 0, .Active⟩))) 70)) :=
  c10_multiple_active errNode [⟨1, 60, 0, .Active⟩] [] ⟨2, 70, 0, .Active⟩
    ⟨1, 60, 0, .Active⟩ ⟨0, 0, []⟩ 0 (by decide) (by decide) (by decide) (by decide)

theorem itemSync_trace_checked (node : NodeBackend) (tree : Tree) :
    ∀ (qs : List Nat) (e : FetchEvent), e ∈ (itemSync node tree qs).2 →
      (∀ h, e = FetchEvent.headerAt h → tree.index.contains h = false) ∧
      (∀ c h, e = FetchEvent.restGet c h → False) := by
  intro qs
  induction qs with
  | nil => intro e he; simp [itemSync] at he
  | cons q rest ih =>
    intro e he
    unfold itemSync at he
    cases hbh : node.block_hash q with
    | error err =>
      rw [hbh] at he
      dsimp only at he
      rcases List.mem_singleton.mp he with rfl
      exact ⟨(fun h heq => nomatch heq), (fun c h heq => nomatch heq)⟩
    | ok hsh =>
      rw [hbh] at he
      dsimp only at he
      by_cases hc : tree.index.contains hsh = true
      · rw [if_pos hc] at he
        rcases List.mem_cons.mp he with rfl | he'
        · exact ⟨(fun h heq => nomatch heq), (fun c h heq => nomatch heq)⟩
        · exact ih e he'
      · rw [if_neg hc] at he
        cases hbh2 : node.block_header hsh with
        | error err =>
          rw [hbh2] at he
          dsimp only at he
          rcases List.mem_cons.mp he with rfl | he'
          · exact ⟨(fun h heq => nomatch heq), (fun c h heq => nomatch heq)⟩
          · rcases List.mem_singleton.mp he' with rfl
            refine ⟨(fun h heq => ?_), (fun c h heq => nomatch heq)⟩
            cases heq
            exact Bool.eq_false_iff.mpr hc
        | ok hdr =>
          rw [hbh2] at he
          dsimp only at he
          rcases List.mem_cons.mp he with rfl | he'
          · exact ⟨(fun h heq => nomatch heq), (fun c h heq => nomatch heq)⟩
          · rcases List.mem_cons.mp he' with rfl | he''
            · refine ⟨(fun h heq => ?_), (fun c h heq => nomatch heq)⟩
              cases heq
              exact Bool.eq_false_iff.mpr hc
            · exact ih e he''

theorem restSync_trace_checked (node : NodeBackend) (tree : Tree) :
    ∀ (qs : List Nat) (e : FetchEvent), e ∈ (restSync node tree qs).2 →
      (∀ h, e = FetchEvent.headerAt h → False) ∧
      (∀ c h, e = FetchEvent.restGet c h → tree.index.contains h = false) := by
  intro qs
  induction qs with
  | nil => intro e he; simp [restSync] at he
  | cons q rest ih =>
    intro e he
    unfold restSync at he
    cases hbh : node.block_hash q with
    | error err =>
      rw [hbh] at he
      dsimp only at he
      rcases List.mem_singleton.mp he with rfl
      exact ⟨(fun h heq => nomatch heq), (fun c h heq => nomatch heq)⟩
    | ok hsh =>
      rw [hbh] at he
      dsimp only at he
      by_cases hc : tree.index.contains hsh = true
      · rw [if_pos hc] at he
        rcases List.mem_cons.mp he with rfl | he'
        · exact ⟨(fun h heq => nomatch heq), (fun c h heq => nomatch heq)⟩
        · exact ih e he'
      · rw [if_neg hc] at he
        cases harr : activeChainHeadersRest node STEP_SIZE hsh with
        | error err =>
          rw [harr] at he
          dsimp only at he
          rcases List.mem_cons.mp he with rfl | he'
          · exact ⟨(fun h heq => nomatch heq), (fun c h heq => nomatch heq)⟩
          · rcases List.mem_singleton.mp he' with rfl
            refine ⟨(fun h heq => nomatch heq), (fun c h heq => ?_)⟩
            cases heq
            exact Bool.eq_false_iff.mpr hc
        | ok headers =>
          rw [harr] at he
          dsimp only at he
          rcases List.mem_cons.mp he with rfl | he'
          · exact ⟨(fun h heq => nomatch heq), (fun c h heq => nomatch heq)⟩
          · rcases List.mem_cons.mp he' with rfl | he''
            · refine ⟨(fun h heq => nomatch heq), (fun c h heq => ?_)⟩
              cases heq
              exact Bool.eq_false_iff.mpr hc
            · exact ih e he''

/-- Claim C2 (amended): active-chain synchronization never issues a fetch
from a hash that its membership check found in the tree: in the single-item
path every fetched header's hash was checked and absent, and in the bulk
path every batch-start hash a GET is issued from was checked and absent.
(The amendment: in the bulk path only batch-start heights — every 2000th
candidate height — are membership-checked; a hash at a non-batch-start
height that is already in the tree is not checked and its header is
re-fetched and re-returned as part of the surrounding batch, as the
counterexample shows.) -/
theorem c2_checked_fetches (node : NodeBackend) (tips : List ChainTip) (tree : Tree)
    (mfh : Nat) (e : FetchEvent)
    (he : e ∈ (new_active_headers node tips tree mfh).2) :
    (∀ h, e = FetchEvent.headerAt h → tree.index.contains h = false) ∧
    (∀ c h, e = FetchEvent.restGet c h → tree.index.contains h = false) := by
  unfold new_active_headers at he
  cases hsel : selectedForkTip tips mfh with
  | none => rw [hsel] at he; simp at he
  | some fft =>
    rw [hsel] at he
    dsimp only at he
    cases hat : activeTipOf tips with
    | none => rw [hat] at he; simp at he
    | some atip =>
      rw [hat] at he
      dsimp only at he
      by_cases hr : node.use_rest = true
      · rw [if_pos hr] at he
        have h := restSync_trace_checked node tree _ e he
        exact ⟨fun h' heq => (h.1 h' heq).elim, h.2⟩
      · rw [if_neg hr] at he
        have h := itemSync_trace_checked node tree _ e he
        exact ⟨h.1, fun c h' heq => (h.2 c h' heq).elim⟩

theorem c2_checked_fetches_witness : ([5] : List Nat).contains 95 = false := by
  have h := c2_checked_fetches (itemNode (fun q => q) (fun _ => ⟨0, 0, 0, 0, 0, 0⟩))
    [⟨100, 100, 0, .Active⟩] ⟨1, 90, [5]⟩ 0 (.headerAt 95) (by decide)
  exact h.1 95 rfl

/-- A bulk-transport backend used by the C2 and C1 counterexamples:
hash-by-height is `100 + height`, and every REST GET answers 200 with a body
of two serialized zero headers. -/
def nodeC2 : NodeBackend :=
  { use_rest := true
  , block_hash := fun h => .ok (100 + h)
  , block_header := fun _ => .error (.RpcClient 0)
  , rest_get := fun _ _ => .ok ⟨200, "",
      (([⟨0, 0, 0, 0, 0, 0⟩, ⟨0, 0, 0, 0, 0, 0⟩] : List BlockHeader).map
        serializeHeader).flatten⟩ }

set_option maxRecDepth 20000 in
/-- Claim C2 counterexample: bulk path, tree whose index holds hash `112`
(the hash of height 12 — e.g. inserted by a concurrent poller after the
leaf-height read), `current_height = 10`, active tip at height 12.  The only
membership check is for batch-start height 11 (hash 111); height 12 is a
candidate height in `(10, 12]`, its hash `112` is in the tree's index, yet
its header is fetched again as part of the batch and returned as a
height-12 record, and the trace shows no check-or-skip for it. -/
theorem c2_counterexample :
    (new_active_headers nodeC2 [⟨112, 12, 0, .Active⟩] ⟨1, 10, [112]⟩ 0).1 =
      .ok [⟨11, ⟨0, 0, 0, 0, 0, 0⟩⟩, ⟨12, ⟨0, 0, 0, 0, 0, 0⟩⟩] ∧
    (⟨1, 10, [112]⟩ : Tree).index.contains 112 = true ∧
    nodeC2.block_hash 12 = .ok 112 ∧
    (new_active_headers nodeC2 [⟨112, 12, 0, .Active⟩] ⟨1, 10, [112]⟩ 0).2 =
      [.hashAt 11, .restGet 2000 111] := by
  refine ⟨?_, ?_, ?_, ?_⟩ <;> rfl

/-! ## Serialization lemmas for the bulk fetch claim -/

/-- Field bounds under which a `BlockHeader` value is representable in its
80-byte wire form (32-bit version, time, bits, nonce; 256-bit hashes). -/
def HdrWf (h : BlockHeader) : Prop :=
  h.version < 2 ^ 32 ∧ h.prev_blockhash < 2 ^ 256 ∧ h.merkle_root < 2 ^ 256 ∧
    h.time < 2 ^ 32 ∧ h.bits < 2 ^ 32 ∧ h.nonce < 2 ^ 32

instance (h : BlockHeader) : Decidable (HdrWf h) := by
  unfold HdrWf
  infer_instance

theorem toLE_length (k : Nat) : ∀ n, (toLE k n).length = k := by
  induction k with
  | zero => intro n; rfl
  | succ k ih => intro n; simp [toLE, ih]

theorem fromLE_toLE (k : Nat) : ∀ n, n < 256 ^ k → fromLE (toLE k n) = n := by
  induction k with
  | zero =>
    intro n hn
    have hz : n = 0 := by simpa using hn
    subst hz
    rfl
  | succ k ih =>
    intro n hn
    show n % 256 + 256 * fromLE (toLE k (n / 256)) = n
    have hlt : n < 256 * 256 ^ k := by
      rw [Nat.pow_succ] at hn
      omega
    rw [ih (n / 256) (Nat.div_lt_of_lt_mul hlt)]
    exact Nat.mod_add_div n 256

theorem serializeHeader_length (h : BlockHeader) : (serializeHeader h).length = 80 := by
  simp [serializeHeader, toLE_length]

theorem deserializeHeader_serializeHeader (h : BlockHeader) (hwf : HdrWf h) :
    deserializeHeader (serializeHeader h) = .ok h := by
  obtain ⟨h1, h2, h3, h4, h5, h6⟩ := hwf
  have hs256 : (2 : Nat) ^ 256 = 256 ^ 32 := by norm_num
  have hs32 : (2 : Nat) ^ 32 = 256 ^ 4 := by norm_num
  have d4 : (serializeHeader h).drop 4 =
      toLE 32 h.prev_blockhash ++ (toLE 32 h.merkle_root ++
        (toLE 4 h.time ++ (toLE 4 h.bits ++ toLE 4 h.nonce))) := by
    unfold serializeHeader
    exact List.drop_left' (toLE_length 4 _)
  have d36 : (serializeHeader h).drop 36 =
      toLE 32 h.merkle_root ++ (toLE 4 h.time ++ (toLE 4 h.bits ++ toLE 4 h.nonce)) := by
    rw [show (36 : Nat) = 4 + 32 from rfl, ← List.drop_drop, d4]
    exact List.drop_left' (toLE_length 32 _)
  have d68 : (serializeHeader h).drop 68 =
      toLE 4 h.time ++ (toLE 4 h.bits ++ toLE 4 h.nonce) := by
    rw [show (68 : Nat) = 36 + 32 from rfl, ← List.drop_drop, d36]
    exact List.drop_left' (toLE_length 32 _)
  have d72 : (serializeHeader h).drop 72 = toLE 4 h.bits ++ toLE 4 h.nonce := by
    rw [show (72 : Nat) = 68 + 4 from rfl, ← List.drop_drop, d68]
    exact List.drop_left' (toLE_length 4 _)
  have d76 : (serializeHeader h).drop 76 = toLE 4 h.nonce := by
    rw [show (76 : Nat) = 72 + 4 from rfl, ← List.drop_drop, d72]
    exact List.drop_left' (toLE_length 4 _)
  unfold deserializeHeader
  rw [if_pos (serializeHeader_length h)]
  rw [show (serializeHeader h).take 4 = toLE 4 h.version from
        List.take_left' (toLE_length 4 _)]
  rw [d4, d36, d68, d72, d76]
  rw [List.take_left' (toLE_length 32 h.prev_blockhash),
      List.take_left' (toLE_length 32 h.merkle_root),
      List.take_left' (toLE_length 4 h.time),
      List.take_left' (toLE_length 4 h.bits),
      List.take_of_length_le (by rw [toLE_length])]
  rw [fromLE_toLE 4 _ (by omega), fromLE_toLE 32 _ (by omega),
      fromLE_toLE 32 _ (by omega), fromLE_toLE 4 _ (by omega),
      fromLE_toLE 4 _ (by omega), fromLE_toLE 4 _ (by omega)]

theorem chunksAux_congr : ∀ (f g : Nat) (l : List Nat), l.length ≤ f → l.length ≤ g →
    chunksAux f l = chunksAux g l := by
  intro f
  induction f with
  | zero =>
    intro g l hf hg
    have : l = [] := List.eq_nil_of_length_eq_zero (Nat.le_zero.mp hf)
    subst this
    cases g <;> rfl
  | succ f ih =>
    intro g l hf hg
    cases l with
    | nil => cases g <;> rfl
    | cons x rest =>
      cases g with
      | zero => simp at hg
      | succ g =>
        show (x :: rest).take 80 :: chunksAux f ((x :: rest).drop 80) =
          (x :: rest).take 80 :: chunksAux g ((x :: rest).drop 80)
        congr 1
        apply ih
        · rw [List.length_drop]
          simp only [List.length_cons] at hf ⊢
          omega
        · rw [List.length_drop]
          simp only [List.length_cons] at hg ⊢
          omega

theorem chunks80_cons_eq (l : List Nat) (hl : l ≠ []) :
    chunks80 l = l.take 80 :: chunks80 (l.drop 80) := by
  cases l with
  | nil => exact absurd rfl hl
  | cons x rest =>
    show chunksAux (rest.length + 1) (x :: rest) = _
    have h1 : chunksAux (rest.length + 1) (x :: rest) =
        (x :: rest).take 80 :: chunksAux rest.length ((x :: rest).drop 80) := rfl
    rw [h1]
    congr 1
    apply chunksAux_congr
    · rw [List.length_drop]
      simp only [List.length_cons]
      omega
    · exact Nat.le_refl _

theorem chunks80_serialized : ∀ hs : List BlockHeader,
    chunks80 ((hs.map serializeHeader).flatten) = hs.map serializeHeader := by
  intro hs
  induction hs with
  | nil => rfl
  | cons h t ih =>
    rw [List.map_cons, List.flatten_cons]
    have hne : serializeHeader h ++ (t.map serializeHeader).flatten ≠ [] := by
      intro hc
      have hlc := congrArg List.length hc
      rw [List.length_append, serializeHeader_length] at hlc
      simp at hlc
    rw [chunks80_cons_eq _ hne,
        List.take_left' (serializeHeader_length h),
        List.drop_left' (serializeHeader_length h), ih]

theorem collectHeaders_serialized : ∀ hs : List BlockHeader, (∀ h ∈ hs, HdrWf h) →
    collectHeaders (hs.map serializeHeader) = .ok hs := by
  intro hs
  induction hs with
  | nil => intro _; rfl
  | cons h t ih =>
    intro hwf
    rw [List.map_cons]
    unfold collectHeaders
    rw [deserializeHeader_serializeHeader h (hwf h (by simp)),
        ih (fun x hx => hwf x (by simp [hx]))]

theorem flatten_serialized_length (hs : List BlockHeader) :
    ((hs.map serializeHeader).flatten).length = 80 * hs.length := by
  induction hs with
  | nil => rfl
  | cons h t ih =>
    rw [List.map_cons, List.flatten_cons, List.length_append, serializeHeader_length, ih,
        List.length_cons]
    omega

theorem chunks80_short_chunk : ∀ (n : Nat) (l : List Nat), l.length = n →
    l.length % 80 ≠ 0 → ∃ c ∈ chunks80 l, c.length ≠ 80 := by
  intro n
  induction n using Nat.strong_induction_on with
  | _ n ih =>
    intro l hn hmod
    cases l with
    | nil => simp at hmod
    | cons x rest =>
      rw [chunks80_cons_eq _ (List.cons_ne_nil x rest)]
      by_cases hlen : (x :: rest).length ≤ 80
      · refine ⟨x :: rest, ?_, ?_⟩
        · rw [List.take_of_length_le hlen]
          exact List.mem_cons_self _ _
        · intro hc
          rw [hc] at hmod
          simp at hmod
      · push_neg at hlen
        have hd : ((x :: rest).drop 80).length = (x :: rest).length - 80 :=
          List.length_drop 80 (x :: rest)
        obtain ⟨c, hc1, hc2⟩ := ih ((x :: rest).length - 80) (by omega)
          ((x :: rest).drop 80) hd (by rw [hd]; omega)
        exact ⟨c, List.mem_cons_of_mem _ hc1, hc2⟩

theorem collectHeaders_error_of_mem : ∀ (cs : List (List Nat)) (c : List Nat), c ∈ cs →
    c.length ≠ 80 → ∃ e, collectHeaders cs = .error e := by
  intro cs
  induction cs with
  | nil => intro c hc; simp at hc
  | cons d rest ih =>
    intro c hc hlen
    rcases List.mem_cons.mp hc with rfl | hc'
    · refine ⟨"unexpected length", ?_⟩
      unfold collectHeaders deserializeHeader
      rw [if_neg hlen]
    · cases hdd : deserializeHeader d with
      | error e =>
        refine ⟨e, ?_⟩
        unfold collectHeaders
        rw [hdd]
      | ok hh =>
        obtain ⟨e, he⟩ := ih c hc' hlen
        refine ⟨e, ?_⟩
        unfold collectHeaders
        rw [hdd, he]

/-- Claim C8: `active_chain_headers_rest`, given that the GET succeeds and
returns `resp`: (a) a 200 response whose body is the concatenation of the
80-byte serializations of (representable) headers yields exactly those
`body.length / 80` headers in server order; (b) a non-200 response yields
the transport failure carrying status code, reason phrase and body; (c) a
200 response whose body length is not a multiple of 80 yields a decode
failure (its final short chunk fails to deserialize) and no headers. -/
theorem c8_bulk_fetch (node : NodeBackend) (count start : Nat) (resp : HttpResponse)
    (hresp : node.rest_get count start = .ok resp) :
    (resp.status_code = 200 → ∀ hs : List BlockHeader, (∀ h ∈ hs, HdrWf h) →
        resp.body = (hs.map serializeHeader).flatten →
        activeChainHeadersRest node count start = .ok hs ∧
          hs.length = resp.body.length / 80) ∧
    (resp.status_code ≠ 200 →
        activeChainHeadersRest node count start =
          .error (.BitcoinCoreREST
            (.transport resp.status_code resp.reason_phrase resp.body))) ∧
    (resp.status_code = 200 → resp.body.length % 80 ≠ 0 →
        ∃ e, activeChainHeadersRest node count start =
          .error (.BitcoinCoreREST (.decode e))) := by
  refine ⟨?_, ?_, ?_⟩
  · intro h200 hs hwf hbody
    constructor
    · unfold activeChainHeadersRest
      rw [hresp]
      dsimp only
      rw [if_neg (by simp [h200]), hbody, chunks80_serialized,
          collectHeaders_serialized hs hwf]
    · rw [hbody, flatten_serialized_length]
      omega
  · intro hne
    unfold activeChainHeadersRest
    rw [hresp]
    dsimp only
    rw [if_pos (by simpa using hne)]
  · intro h200 hmod
    obtain ⟨c, hc, hclen⟩ := chunks80_short_chunk resp.body.length resp.body rfl hmod
    obtain ⟨e, he⟩ := collectHeaders_error_of_mem (chunks80 resp.body) c hc hclen
    refine ⟨e, ?_⟩
    unfold activeChainHeadersRest
    rw [hresp]
    dsimp only
    rw [if_neg (by simp [h200]), he]

/-- The all-zero block header. -/
def zeroHeader : BlockHeader := ⟨0, 0, 0, 0, 0, 0⟩

/-- The REST backend used by the C8 witness: start hash 1 answers 200 with
two serialized headers, start hash 2 answers 404, anything else answers 200
with an 81-byte body. -/
def nodeC8 : NodeBackend :=
  { use_rest := true
  , block_hash := fun _ => .error (.RpcClient 0)
  , block_header := fun _ => .error (.RpcClient 0)
  , rest_get := fun _ s =>
      if s = 1 then
        .ok ⟨200, "OK", (([zeroHeader, zeroHeader]).map serializeHeader).flatten⟩
      else if s = 2 then .ok ⟨404, "Not Found", []⟩
      else .ok ⟨200, "OK", List.replicate 81 0⟩ }

theorem c8_bulk_fetch_witness :
    activeChainHeadersRest nodeC8 2000 1 = .ok [zeroHeader, zeroHeader] ∧
    activeChainHeadersRest nodeC8 2000 2 =
      .error (.BitcoinCoreREST (.transport 404 "Not Found" [])) ∧
    ∃ e, activeChainHeadersRest nodeC8 2000 3 =
      .error (.BitcoinCoreREST (.decode e)) := by
  refine ⟨?_, ?_, ?_⟩
  · exact ((c8_bulk_fetch nodeC8 2000 1
      ⟨200, "OK", (([zeroHeader, zeroHeader]).map serializeHeader).flatten⟩ rfl).1
      rfl [zeroHeader, zeroHeader] (by decide) rfl).1
  · exact (c8_bulk_fetch nodeC8 2000 2 ⟨404, "Not Found", []⟩ rfl).2.1 (by decide)
  · exact (c8_bulk_fetch nodeC8 2000 3 ⟨200, "OK", List.replicate 81 0⟩ rfl).2.2 rfl
      (by decide)

/-! ## Claim C1: REST batching -/

set_option maxRecDepth 20000 in
/-- Claim C1 counterexample: bulk path with `current_height = 0` and active
tip height 2002; every REST batch returns 2 headers.  The batch at query
height 1 returns 2 headers, yet the next query height is 2001 (the fixed
stride of 2000, visible in the trace), not 3; the run ends with only heights
1, 2, 2001, 2002 — the missing heights 3..2000 of `(0, 2002]` are neither
fetched nor covered, refuting "advances by the number of headers actually
returned" and the resulting coverage. -/
theorem c1_counterexample :
    (new_active_headers nodeC2 [⟨2102, 2002, 0, .Active⟩] ⟨1, 0, [999999]⟩ 0).1 =
      .ok [⟨1, zeroHeader⟩, ⟨2, zeroHeader⟩, ⟨2001, zeroHeader⟩, ⟨2002, zeroHeader⟩] ∧
    (new_active_headers nodeC2 [⟨2102, 2002, 0, .Active⟩] ⟨1, 0, [999999]⟩ 0).2 =
      [.hashAt 1, .restGet 2000 101, .hashAt 2001, .restGet 2000 2101] := by
  refine ⟨?_, ?_⟩ <;> rfl

theorem restSync_stride (node : NodeBackend) (tree : Tree) (T : Nat)
    (hf : Nat → Nat) (hs : Nat → List BlockHeader)
    (hidx : tree.index = [])
    (hhash : ∀ q, node.block_hash q = .ok (hf q))
    (hbatch : ∀ q, activeChainHeadersRest node STEP_SIZE (hf q) = .ok (hs q))
    (hlen : ∀ q, 0 < q → q ≤ T → (hs q).length = min 2000 (T + 1 - q)) :
    ∀ (n q : Nat), 0 < q → (∀ k, k < n → q + 2000 * k ≤ T) → T + 1 - q ≤ 2000 * n →
      ∃ L, restSync node tree (List.range' q n 2000) =
          (.ok L, ((List.range' q n 2000).map
            (fun q' => [FetchEvent.hashAt q', FetchEvent.restGet STEP_SIZE (hf q')])).flatten) ∧
        L.map (fun r => r.height) = List.range' q (T + 1 - q) := by
  intro n
  induction n with
  | zero =>
    intro q hq hk hcov
    refine ⟨[], rfl, ?_⟩
    have h0 : T + 1 - q = 0 := by omega
    rw [h0]
    rfl
  | succ n ih =>
    intro q hq hk hcov
    have hqT : q ≤ T := by simpa using hk 0 (by omega)
    obtain ⟨L, hL, hLmap⟩ := ih (q + 2000) (by omega)
      (fun k hkn => by have := hk (k + 1) (by omega); omega) (by omega)
    refine ⟨((List.range' q ((hs q).length)).zip (hs q)).map
      (fun p => (⟨p.1, p.2⟩ : HeaderInfo)) ++ L, ?_, ?_⟩
    · rw [List.range'_succ]
      unfold restSync
      rw [hhash q]
      dsimp only
      rw [hidx]
      rw [if_neg (by simp)]
      rw [hbatch q]
      dsimp only
      rw [hL]
      dsimp only
      rw [List.map_cons, List.flatten_cons]
      rfl
    · rw [List.map_append]
      have hbm : ((((List.range' q ((hs q).length)).zip (hs q)).map
          (fun p => (⟨p.1, p.2⟩ : HeaderInfo))).map (fun r => r.height)) =
          List.range' q ((hs q).length) := by
        rw [List.map_map]
        have hcomp : ((fun r : HeaderInfo => r.height) ∘
            fun p : Nat × BlockHeader => (⟨p.1, p.2⟩ : HeaderInfo)) = Prod.fst := rfl
        rw [hcomp]
        exact List.map_fst_zip _ _ (by rw [List.length_range'])
      rw [hbm, hLmap, hlen q hq hqT]
      by_cases hle : T + 1 - q ≤ 2000
      · have hn0 : n = 0 := by
          by_contra hne
          have := hk 1 (by omega)
          omega
        subst hn0
        have h0 : T + 1 - (q + 2000) = 0 := by omega
        have hmin : min 2000 (T + 1 - q) = T + 1 - q := by omega
        rw [h0, hmin]
        simp
      · push_neg at hle
        have hmin : min 2000 (T + 1 - q) = 2000 := by omega
        rw [hmin]
        have happ := List.range'_append q 2000 (T + 1 - (q + 2000)) 1
        simp only [Nat.one_mul] at happ
        have harith : T + 1 - (q + 2000) + 2000 = T + 1 - q := by omega
        rw [harith] at happ
        exact happ

/-- Claim C1 (amended): with bulk transport, `new_active_headers` requests
batches of up to 2000 headers starting from each batch-start height's hash,
where the batch starts advance by a fixed stride of 2000
(`current_height + 1, + 2001, ...` — not by the number of headers returned),
and the `k` headers a batch starting at `q` returns are paired with heights
`q .. q + k - 1`.  Every missing height in
`(current_height, active_tip.height]` is covered provided every batch
returns `min(2000, active_tip.height + 1 - q)` headers; a batch returning
fewer leaves the rest of its 2000-height window unfetched (see the
counterexample). -/
theorem c1_fixed_stride_batches (node : NodeBackend) (tips : List ChainTip) (tree : Tree)
    (mfh : Nat) (fft atip : ChainTip) (hf : Nat → Nat) (hs : Nat → List BlockHeader)
    (hrest : node.use_rest = true)
    (h1 : selectedForkTip tips mfh = some fft)
    (h2 : activeTipOf tips = some atip)
    (hidx : tree.index = [])
    (hhash : ∀ q, node.block_hash q = .ok (hf q))
    (hbatch : ∀ q, activeChainHeadersRest node STEP_SIZE (hf q) = .ok (hs q))
    (hlen : ∀ q, 0 < q → q ≤ atip.height →
      (hs q).length = min 2000 (atip.height + 1 - q)) :
    ∃ L, new_active_headers node tips tree mfh =
        (.ok L, ((batchStarts (currentHeightOf tree (scanStartOf (forkRootW fft)))
            atip.height).map
          (fun q => [FetchEvent.hashAt q, FetchEvent.restGet STEP_SIZE (hf q)])).flatten) ∧
      L.map (fun r => r.height) =
        itemHeights (currentHeightOf tree (scanStartOf (forkRootW fft))) atip.height := by
  have hmain := restSync_stride node tree atip.height hf hs hidx hhash hbatch hlen
    ((atip.height - currentHeightOf tree (scanStartOf (forkRootW fft)) +
        (STEP_SIZE - 1)) / STEP_SIZE)
    (currentHeightOf tree (scanStartOf (forkRootW fft)) + 1)
    (by omega)
    (by
      intro k hk
      simp only [STEP_SIZE] at hk ⊢
      omega)
    (by
      simp only [STEP_SIZE]
      omega)
  obtain ⟨L, hL, hLmap⟩ := hmain
  refine ⟨L, ?_, ?_⟩
  · have hna : new_active_headers node tips tree mfh =
        restSync node tree
          (batchStarts (currentHeightOf tree (scanStartOf (forkRootW fft))) atip.height) := by
      unfold new_active_headers
      rw [h1, h2]
      dsimp only
      rw [if_pos hrest]
    rw [hna]
    exact hL
  · rw [hLmap]
    unfold itemHeights
    congr 1
    omega

/-- The REST backend used by the C1 witness: hash-by-height is the identity;
start hash 1 answers 200 with one serialized zero header, anything else
answers 200 with an empty body. -/
def nodeC1W : NodeBackend :=
  { use_rest := true
  , block_hash := fun q => .ok q
  , block_header := fun _ => .error (.RpcClient 0)
  , rest_get := fun _ s =>
      if s = 1 then .ok ⟨200, "OK", ([zeroHeader].map serializeHeader).flatten⟩
      else .ok ⟨200, "OK", []⟩ }

/-- The per-batch-start header lists returned by `nodeC1W`. -/
def hsC1W : Nat → List BlockHeader := fun q => if q = 1 then [zeroHeader] else []

theorem c1_fixed_stride_batches_witness :
    ∃ L, new_active_headers nodeC1W [⟨999, 1, 0, .Active⟩] ⟨1, 0, []⟩ 0 =
        (.ok L, ((batchStarts (currentHeightOf ⟨1, 0, []⟩
            (scanStartOf (forkRootW ⟨999, 1, 0, .Active⟩))) 1).map
          (fun q => [FetchEvent.hashAt q, FetchEvent.restGet STEP_SIZE q])).flatten) ∧
      L.map (fun r => r.height) =
        itemHeights (currentHeightOf ⟨1, 0, []⟩
          (scanStartOf (forkRootW ⟨999, 1, 0, .Active⟩))) 1 := by
  have hbatch : ∀ q, activeChainHeadersRest nodeC1W STEP_SIZE q = .ok (hsC1W q) := by
    intro q
    by_cases hq : q = 1
    · subst hq
      rfl
    · unfold activeChainHeadersRest nodeC1W hsC1W
      dsimp only
      rw [if_neg hq, if_neg hq]
      rfl
  have hlen : ∀ q, 0 < q → q ≤ 1 → (hsC1W q).length = min 2000 (1 + 1 - q) := by
    intro q hq1 hq2
    have : q = 1 := by omega
    subst this
    decide
  exact c1_fixed_stride_batches nodeC1W [⟨999, 1, 0, .Active⟩] ⟨1, 0, []⟩ 0
    ⟨999, 1, 0, .Active⟩ ⟨999, 1, 0, .Active⟩ (fun q => q) hsC1W rfl (by decide) (by decide)
    rfl (fun q => rfl) hbatch hlen

end ForkObserver
